import Mathlib

/-!
# Comments service (`main.go`): a shallow embedding and its contract

The program is an HTTP service with five handlers over one MongoDB collection.
Each handler is embedded as a pure function from the collection's contents (and
the request) to the collection's new contents and the outcome of the request.

What the handlers call in their libraries is embedded next to them, each
definition naming the library function it stands for:

* `primitive.ObjectID` is twelve bytes; `ObjectIDFromHex` and `Hex` are the
  driver's hexadecimal conversions;
* the collection is a sequence of BSON documents with the fields `_id`, `time`
  and `comment`, the layout fixed by the `bson` tags of `Comment`; a BSON date
  is a whole number of milliseconds;
* `json.Decoder.Decode` and `json.Encoder.Encode` work on JSON values, not on
  bytes: a request body is the JSON value the decoder reads or nothing, a
  response body is the JSON value the encoder writes.

The database is taken to be reachable: the only store error a handler can meet
is the one its own request causes (a duplicate `_id`, a missing document).
-/

set_option linter.dupNamespace false

namespace Comments

/-! ## Object identifiers -/

/-- One byte. -/
abbrev Byte := Fin 256

/-- Go `primitive.ObjectID`, declared `[12]byte`. -/
abbrev ObjectID := { l : List Byte // l.length = 12 }

/-- Go `primitive.NilObjectID`, the zero value of `ObjectID`. -/
def NilObjectID : ObjectID := ⟨List.replicate 12 0, by simp⟩

/-- Entry `n` of the table `"0123456789abcdef"` of `encoding/hex`. -/
def hexDigit (n : Nat) : Char :=
  "0123456789abcdef".toList.getD n '0'

/-- Go `hex.Encode` on one byte: the high nibble's digit, then the low one's. -/
def encodeByte (b : Byte) : List Char :=
  [hexDigit (b.val / 16), hexDigit (b.val % 16)]

/-- Go `ObjectID.Hex`: `hex.Encode` of the twelve bytes, 24 characters. -/
def ObjectID.Hex (id : ObjectID) : String :=
  String.mk (id.val.flatMap encodeByte)

/-- The value of one hexadecimal digit, in either case (the reverse table of
`encoding/hex`); `none` for any other character. -/
def fromHexChar (c : Char) : Option (Fin 16) :=
  if h : 48 ≤ c.toNat ∧ c.toNat ≤ 57 then some ⟨c.toNat - 48, by omega⟩
  else if h : 97 ≤ c.toNat ∧ c.toNat ≤ 102 then some ⟨c.toNat - 97 + 10, by omega⟩
  else if h : 65 ≤ c.toNat ∧ c.toNat ≤ 70 then some ⟨c.toNat - 65 + 10, by omega⟩
  else none

/-- Go `hex.Decode`: two digits make a byte, `(a << 4) | b`; an invalid digit or
an odd number of characters is an error. -/
def hexDecode : List Char → Option (List Byte)
  | [] => some []
  | [_] => none
  | p :: q :: rest =>
    match fromHexChar p, fromHexChar q with
    | some a, some b =>
      match hexDecode rest with
      | some bs => some (⟨a.val * 16 + b.val, by omega⟩ :: bs)
      | none => none
    | _, _ => none

/-- Go `copy(oid[:], b)` into a zeroed `[12]byte`: the first twelve bytes of
`b`, zero where `b` has none. -/
def copy12 (b : List Byte) : ObjectID :=
  ⟨(b ++ List.replicate 12 0).take 12, by simp⟩

/-- Go `primitive.ObjectIDFromHex`: a string whose length in bytes is not 24,
or that is not hexadecimal throughout, is an error; `none` stands for the error,
with which the driver returns `NilObjectID`. -/
def ObjectIDFromHex (s : String) : Option ObjectID :=
  if s.utf8ByteSize ≠ 24 then none
  else match hexDecode s.toList with
    | some b => some (copy12 b)
    | none => none

/-- The statement `id, _ := primitive.ObjectIDFromHex(params["id"])` of the
handlers: the error is dropped and `id` is `NilObjectID` when there is one. -/
def idOfParam (s : String) : ObjectID :=
  (ObjectIDFromHex s).getD NilObjectID

/-! ## Instants and comments -/

/-- Go `time.Time`, as the instant it denotes: nanoseconds counted from the zero
value of the type (the start of January 1 of year 1, UTC). The location and the
monotonic reading a `time.Time` also carries are left out. The instants meant
are those of the years 0 to 9999, which every reading of a clock is: they are
the ones `Time.MarshalJSON` writes and a BSON date holds. -/
abbrev Instant := Int

/-- The struct `Comment` of the source. -/
structure Comment where
  ID : ObjectID
  Time : Instant
  Comment : String
deriving DecidableEq

/-- Go `Comment{}`, the zero value: `NilObjectID`, the zero time, the empty
string. -/
def zeroComment : Comment := ⟨NilObjectID, 0, ""⟩

/-! ## The collection -/

/-- A BSON document of the collection, with the fields the `bson` tags of
`Comment` name: `_id` an ObjectId, `time` a UTC datetime (a signed count of
milliseconds from the start of 1970), `comment` a string. -/
structure Document where
  _id : ObjectID
  time : Int
  comment : String
deriving DecidableEq

/-- Seconds from the zero instant to the start of 1970 (`unixToInternal` of
package `time`). -/
def unixToInternal : Int := 62135596800

/-- Go `Time.Unix`: whole seconds since the start of 1970. -/
def Instant.Unix (t : Instant) : Int := t / 1000000000 - unixToInternal

/-- Go `Time.Nanosecond`: the nanoseconds within the second, 0 to 999999999. -/
def Instant.Nanosecond (t : Instant) : Int := t % 1000000000

/-- Go `primitive.NewDateTimeFromTime`, called by the driver's time codec when
it marshals a `time.Time`: `t.Unix()*1e3 + t.Nanosecond()/1e6`. -/
def NewDateTimeFromTime (t : Instant) : Int :=
  t.Unix * 1000 + t.Nanosecond / 1000000

/-- Go `time.Unix(dt/1000, dt%1000*1000000)`, the driver's decoding of a
datetime: the instant `dt` milliseconds after the start of 1970. -/
def DateTimeTime (dt : Int) : Instant :=
  (dt + unixToInternal * 1000) * 1000000

/-- The driver's `bson.Marshal` of a `Comment` under its `bson` tags. The tag
`omitempty` of `_id` leaves the field out of a comment whose id is zero, and
the driver then inserts under an id of its own making; this embedding is of the
comments whose id is not zero, the ones `CreateComment` marshals when
`primitive.NewObjectID` gives it a non-zero id. -/
def bsonMarshal (c : Comment) : Document :=
  { _id := c.ID, time := NewDateTimeFromTime c.Time, comment := c.Comment }

/-- The driver's `Decode` of a document into a `Comment`. -/
def bsonDecode (d : Document) : Comment :=
  { ID := d._id, Time := DateTimeTime d.time, Comment := d.comment }

/-- The contents of the collection `comments`, in the store's natural order. -/
abbrev Collection := List Document

/-- Go `collection.FindOne(ctx, bson.M{"_id": id})`: the first document with
that `_id`; `none` is `mongo.ErrNoDocuments`. -/
def FindOne (coll : Collection) (id : ObjectID) : Option Document :=
  coll.find? (fun d => decide (d._id = id))

/-- Go `collection.InsertOne(ctx, doc)`: the document is added after the others;
`none` is the duplicate-key error of the unique index on `_id`. -/
def InsertOne (coll : Collection) (doc : Document) : Option Collection :=
  if coll.any (fun d => decide (d._id = doc._id)) then none else some (coll ++ [doc])

/-- Go `collection.UpdateOne(ctx, bson.M{"_id": id}, {"$set": {"comment": text}})`:
the first document with that `_id` gets the new text; no match is no error. -/
def UpdateOne : Collection → ObjectID → String → Collection
  | [], _, _ => []
  | d :: rest, id, text =>
    if d._id = id then { d with comment := text } :: rest
    else d :: UpdateOne rest id text

/-- Go `collection.DeleteOne(ctx, bson.M{"_id": id})`: the first document with
that `_id` is removed; no match is no error. -/
def DeleteOne : Collection → ObjectID → Collection
  | [], _ => []
  | d :: rest, id =>
    if d._id = id then rest else d :: DeleteOne rest id

/-! ## Request bodies: `json.Decoder.Decode` into a `Comment` -/

/-- A JSON value as `encoding/json` reads it. -/
inductive Value where
  | null
  | bool (b : Bool)
  | number (literal : String)
  | string (s : String)
  | array (items : List Value)
  | object (members : List (String × Value))

/-- A request body: the first JSON value of the stream, or `none` when the
bytes do not begin with a complete, well-formed JSON value (an empty body
included). -/
abbrev Body := Option Value

/-- The two `UnmarshalJSON` methods the decoder calls for the fields `ID` and
`Time`, as far as the handlers depend on them: whether they return an error.
`objectID v` says that `(*ObjectID).UnmarshalJSON` accepts the value `v`;
`timeText s` that `(*Time).UnmarshalJSON` accepts the JSON string `s` (an
RFC 3339 time). -/
structure Unmarshalers where
  objectID : Value → Bool
  timeText : String → Bool

/-- Go `(*Time).UnmarshalJSON`: `null` is ignored, a string is parsed, anything
else is "input is not a JSON string". -/
def Unmarshalers.time (u : Unmarshalers) : Value → Bool
  | .null => true
  | .string s => u.timeText s
  | _ => false

/-- The fields of `Comment` by their `json` names. -/
inductive Field where
  | ID
  | Time
  | Comment
deriving DecidableEq

/-- The field an object key selects in `decodeState.object`: the one whose
`json` name is the key, upper and lower case taken as equal; `none` for a key
of no field, which the decoder skips. -/
def fieldOfKey (key : String) : Option Field :=
  let folded := key.toList.map Char.toLower
  if folded = "_id".toList then some .ID
  else if folded = "_time".toList then some .Time
  else if folded = "comment".toList then some .Comment
  else none

/-- What `Decode(&comment)` leaves behind, as far as the handlers read it: the
field `comment.Comment`, and whether an error was returned. (`CreateComment`
overwrites `comment.ID` and `comment.Time`, `UpdateComment` never reads them.) -/
structure Decoded where
  Comment : String
  err : Bool
deriving DecidableEq

/-- Go `decodeState.object` on a struct of type `Comment`, as the decoder runs:
the members are stored in the order they are written, and an error met in one
member is recorded and does not end the decoding, so the members after it are
still stored. A value of the wrong JSON type for the string field is such an
error, the field untouched (`null` is no error and stores nothing); so is an
error of the `UnmarshalJSON` method of `ID` or `Time`. `text` is the field
`Comment` so far, `saved` whether an error has been recorded. -/
def decodeMembers (u : Unmarshalers) : List (String × Value) → String → Bool → Decoded
  | [], text, saved => ⟨text, saved⟩
  | (key, v) :: rest, text, saved =>
    match fieldOfKey key with
    | none => decodeMembers u rest text saved
    | some .Comment =>
      match v with
      | .string s => decodeMembers u rest s saved
      | .null => decodeMembers u rest text saved
      | _ => decodeMembers u rest text true
    | some .ID =>
      if u.objectID v then decodeMembers u rest text saved
      else decodeMembers u rest text true
    | some .Time =>
      if u.time v then decodeMembers u rest text saved
      else decodeMembers u rest text true

/-- The statement `_ = json.NewDecoder(r.Body).Decode(&comment)` on a zero
`comment`. A body that is no JSON value is a syntax error found before anything
is stored; `null` stores nothing and is no error; a value that is neither
`null` nor an object is an `UnmarshalTypeError`. -/
def decodeBody (u : Unmarshalers) : Body → Decoded
  | none => ⟨"", true⟩
  | some .null => ⟨"", false⟩
  | some (.object members) => decodeMembers u members "" false
  | some _ => ⟨"", true⟩

/-! ## Response bodies: `json.Encoder.Encode` -/

/-- The value of a member of an encoded comment. -/
inductive Member where
  /-- A JSON string with this content. -/
  | string (s : String)
  /-- The JSON string `Time.MarshalJSON` writes for the instant: its RFC 3339
  text, with the fraction of the second down to the nanosecond. -/
  | time (t : Instant)
deriving DecidableEq

/-- A JSON object with its members in order. -/
abbrev Object := List (String × Member)

/-- The response bodies the handlers can write (`Encode` ends each with a line
feed, left out here). -/
inductive Json where
  | null
  | string (s : String)
  | object (o : Object)
  | array (items : List Object)
deriving DecidableEq

/-- The Go values a field of `Comment` can hold, by `reflect.Kind`. -/
inductive GoValue where
  | array (length : Nat)
  | struct
  | string (s : String)

/-- Go `isEmptyValue` of `encoding/json`, which decides `omitempty`: an array
or a string is empty when its length is zero, a struct never is. -/
def isEmptyValue : GoValue → Bool
  | .array length => length == 0
  | .string s => s.utf8ByteSize == 0
  | .struct => false

/-- Go `json.Marshal` of a `Comment` under its `json` tags: `_id` and `_time`
carry `omitempty`, `comment` does not. `ID` is a `[12]byte`, written by its
`MarshalJSON` as the string of its hexadecimal form; `Time` is a struct. -/
def encodeComment (c : Comment) : Object :=
  (if isEmptyValue (.array c.ID.val.length) then [] else [("_id", .string c.ID.Hex)]) ++
  (if isEmptyValue .struct then [] else [("_time", .time c.Time)]) ++
  [("comment", .string c.Comment)]

/-- A Go slice of comments: `none` is the nil slice. -/
abbrev Slice := Option (List Comment)

/-- Go `append(comments, comment)`. -/
def Slice.append : Slice → Comment → Slice
  | none, c => some [c]
  | some cs, c => some (cs ++ [c])

/-- Go `json.Marshal` of a `[]Comment`: a nil slice is written `null`, any
other slice as an array. -/
def encodeComments : Slice → Json
  | none => .null
  | some cs => .array (cs.map encodeComment)

/-! ## The handlers -/

/-- How a request ends: a body was written, or `log.Fatal` ended the process
before anything was written. -/
inductive Outcome where
  | responded (body : Json)
  | fatal
deriving DecidableEq

/-- The collection after a request, and how the request ended. -/
structure Result where
  store : Collection
  outcome : Outcome
deriving DecidableEq

/-- The handler `GetComments`: `Find` with the empty filter, then the loop
over the cursor appending each decoded document to `var comments []Comment`. -/
def GetComments (store : Collection) : Result :=
  let comments : Slice := store.foldl (fun acc d => Slice.append acc (bsonDecode d)) none
  ⟨store, .responded (encodeComments comments)⟩

/-- The handler `GetComment`. -/
def GetComment (store : Collection) (param : String) : Result :=
  let id := idOfParam param
  match FindOne store id with
  | none => ⟨store, .responded (.object (encodeComment zeroComment))⟩
  | some d => ⟨store, .responded (.object (encodeComment (bsonDecode d)))⟩

/-- The handler `CreateComment`; `newId` is what `primitive.NewObjectID()`
returns and `now` what `time.Now()` returns. -/
def CreateComment (u : Unmarshalers) (store : Collection) (newId : ObjectID) (now : Instant)
    (body : Body) : Result :=
  let comment : Comment := { ID := newId, Time := now, Comment := (decodeBody u body).Comment }
  match InsertOne store (bsonMarshal comment) with
  | none => ⟨store, .fatal⟩
  | some store' => ⟨store', .responded (.object (encodeComment comment))⟩

/-- The handler `UpdateComment`. -/
def UpdateComment (u : Unmarshalers) (store : Collection) (param : String) (body : Body) :
    Result :=
  let comment := decodeBody u body
  let id := idOfParam param
  let store' := UpdateOne store id comment.Comment
  match FindOne store' id with
  | none => ⟨store', .fatal⟩
  | some d => ⟨store', .responded (.object (encodeComment (bsonDecode d)))⟩

/-- The handler `DeleteComment`. -/
def DeleteComment (store : Collection) (param : String) : Result :=
  let id := idOfParam param
  ⟨DeleteOne store id, .responded (.string "Comment Deleted")⟩

/-! ## Sequences of requests -/

/-- A request to the service, with what the handler takes from its
environment: for `POST /comments` the id `primitive.NewObjectID()` returns and
the reading `time.Now()` returns. -/
inductive Request where
  | getComments
  | getComment (param : String)
  | createComment (newId : ObjectID) (now : Instant) (body : Body)
  | updateComment (param : String) (body : Body)
  | deleteComment (param : String)

/-- The routes of `main`: each request goes to its handler. -/
def handle (u : Unmarshalers) (store : Collection) : Request → Result
  | .getComments => GetComments store
  | .getComment param => GetComment store param
  | .createComment newId now body => CreateComment u store newId now body
  | .updateComment param body => UpdateComment u store param body
  | .deleteComment param => DeleteComment store param

/-- The collection after a sequence of requests. The collection outlives a
request that ends in `log.Fatal`: the next request finds it as it was left. -/
def run (u : Unmarshalers) : Collection → List Request → Collection
  | store, [] => store
  | store, r :: rest => run u (handle u store r).store rest

/-- No document of the collection has this `_id`. -/
def absent (store : Collection) (id : ObjectID) : Bool :=
  store.all (fun d => decide (d._id ≠ id))

/-- The assumption on `primitive.NewObjectID` along a sequence of requests:
each id it returns is not zero and is the `_id` of no document present when it
is returned. -/
def generatorOk (u : Unmarshalers) : Collection → List Request → Bool
  | _, [] => true
  | store, r :: rest =>
    (match r with
      | .createComment newId _ _ => decide (newId ≠ NilObjectID) && absent store newId
      | _ => true)
    && generatorOk u (handle u store r).store rest

/-- The `_id` values of a collection are pairwise different, as the unique
index MongoDB keeps on `_id` makes them. -/
def UniqueIds (store : Collection) : Prop :=
  (store.map (fun d => d._id)).Nodup

instance (store : Collection) : Decidable (UniqueIds store) :=
  List.nodupDecidable (store.map (fun (d : Document) => d._id))

/-- The string of the last member of a JSON object that is named `comment`
(in any case) and holds a string; the empty string when there is none. -/
def commentOf (members : List (String × Value)) : String :=
  members.foldl
    (fun text m =>
      match fieldOfKey m.1, m.2 with
      | some .Comment, .string s => s
      | _, _ => text)
    ""

/-! ## Values used in examples -/

/-- Unmarshalers that accept whatever is left to them. -/
def lenient : Unmarshalers := ⟨fun _ => true, fun _ => true⟩

/-- An id, `65a1b2c3d4e5f60718293a4b`. -/
def idA : ObjectID := idOfParam "65a1b2c3d4e5f60718293a4b"

/-- Another id, `65a1b2c3d4e5f60718293a4c`. -/
def idB : ObjectID := idOfParam "65a1b2c3d4e5f60718293a4c"

/-- A clock reading: 2023-07-03 02:45:23.123456789 UTC. -/
def clockA : Instant := 63823949123123456789

/-- The body with the one member `"comment":"hello"`. -/
def bodyHello : Body := some (.object [("comment", .string "hello")])

/-- A stored comment with id `idB`. -/
def docB : Document := { _id := idB, time := 1688000000000, comment := "old" }

/-- A sequence of requests: two comments created, one updated, one read, the
list read, one deleted. -/
def sampleRequests : List Request :=
  [.createComment idA clockA bodyHello, .createComment idB (clockA + 5) none,
    .updateComment idA.Hex (some (.object [("comment", .string "hi")])),
    .getComment idB.Hex, .getComments, .deleteComment idB.Hex]

/-- The body with the members `"comment":"hello"` and `"_time":5`, in this
order. -/
def bodyBadTime : Body :=
  some (.object [("comment", .string "hello"), ("_time", .number "5")])

/-- The body with the members `"_time":5` and `"comment":"hello"`, in this
order. -/
def bodyBadTimeFirst : Body :=
  some (.object [("_time", .number "5"), ("comment", .string "hello")])

/-- The comments of a collection as `GetComments` lists them. -/
def listed (store : Collection) : List Object :=
  store.map (fun d => encodeComment (bsonDecode d))

/-! ## Lemmas on the library functions -/

theorem millis_arith (t : Int) :
    ((t / 1000000000 - 62135596800) * 1000 + t % 1000000000 / 1000000
      + 62135596800 * 1000) * 1000000 = t - t % 1000000 := by
  omega

theorem roundTrip_time (t : Instant) :
    DateTimeTime (NewDateTimeFromTime t) = t - t % 1000000 :=
  millis_arith t

theorem fromHexChar_hexDigit (n : Fin 16) : fromHexChar (hexDigit n.val) = some n := by
  revert n; decide

theorem utf8Size_hexDigit (n : Fin 16) : (hexDigit n.val).utf8Size = 1 := by
  revert n; decide

theorem hexDecode_encode (l : List Byte) : hexDecode (l.flatMap encodeByte) = some l := by
  induction l with
  | nil => rfl
  | cons b rest ih =>
    have h1 := fromHexChar_hexDigit ⟨b.val / 16, by omega⟩
    have h2 := fromHexChar_hexDigit ⟨b.val % 16, by omega⟩
    show (match fromHexChar (hexDigit (b.val / 16)), fromHexChar (hexDigit (b.val % 16)) with
      | some a, some c =>
        match hexDecode (rest.flatMap encodeByte) with
        | some bs => some (⟨a.val * 16 + c.val, by omega⟩ :: bs)
        | none => none
      | _, _ => none) = some (b :: rest)
    rw [h1, h2, ih]
    simp only [Option.some.injEq, List.cons.injEq, and_true]
    apply Fin.ext
    show b.val / 16 * 16 + b.val % 16 = b.val
    omega

theorem utf8Len_encode (l : List Byte) : String.utf8Len (l.flatMap encodeByte) = 2 * l.length := by
  induction l with
  | nil => rfl
  | cons b rest ih =>
    have h1 := utf8Size_hexDigit ⟨b.val / 16, by omega⟩
    have h2 := utf8Size_hexDigit ⟨b.val % 16, by omega⟩
    simp only [List.flatMap_cons, encodeByte, List.cons_append, List.nil_append,
      String.utf8Len_cons, List.length_cons] at *
    omega

theorem copy12_val (id : ObjectID) : copy12 id.val = id := by
  apply Subtype.ext
  simp only [copy12]
  rw [List.take_append_of_le_length (by rw [id.property])]
  rw [List.take_of_length_le (by rw [id.property])]

theorem ObjectIDFromHex_Hex (id : ObjectID) : ObjectIDFromHex id.Hex = some id := by
  unfold ObjectIDFromHex ObjectID.Hex
  have hlen : (String.mk (id.val.flatMap encodeByte)).utf8ByteSize = 24 := by
    rw [String.utf8ByteSize_mk, utf8Len_encode, id.property]
  rw [if_neg (by rw [hlen]; simp)]
  show (match hexDecode (id.val.flatMap encodeByte) with
    | some b => some (copy12 b) | none => none) = some id
  rw [hexDecode_encode]
  simp only [copy12_val]

theorem idOfParam_Hex (id : ObjectID) : idOfParam id.Hex = id := by
  simp [idOfParam, ObjectIDFromHex_Hex]

theorem FindOne_eq_none_iff (s : Collection) (id : ObjectID) :
    FindOne s id = none ↔ ∀ d ∈ s, d._id ≠ id := by
  simp [FindOne, List.find?_eq_none]

theorem absent_iff (s : Collection) (id : ObjectID) :
    absent s id = true ↔ ∀ d ∈ s, d._id ≠ id := by
  simp [absent, List.all_eq_true]

theorem FindOne_split (pre post : Collection) (d : Document) (id : ObjectID)
    (hd : d._id = id) (hpre : ∀ x ∈ pre, x._id ≠ id) :
    FindOne (pre ++ d :: post) id = some d := by
  induction pre with
  | nil => simp [FindOne, hd]
  | cons x xs ih =>
    have hx : x._id ≠ id := hpre x (List.mem_cons_self _ _)
    have := ih (fun y hy => hpre y (List.mem_cons_of_mem _ hy))
    simpa [FindOne, hx] using this

theorem InsertOne_absent (s : Collection) (doc : Document) (h : ∀ d ∈ s, d._id ≠ doc._id) :
    InsertOne s doc = some (s ++ [doc]) := by
  unfold InsertOne
  rw [if_neg]
  simp only [List.any_eq_true, decide_eq_true_eq, not_exists, not_and]
  exact fun d hd => h d hd

theorem InsertOne_present (s : Collection) (doc : Document) (h : ∃ d ∈ s, d._id = doc._id) :
    InsertOne s doc = none := by
  unfold InsertOne
  rw [if_pos]
  simpa [List.any_eq_true] using h

theorem exists_split (s : Collection) (id : ObjectID) (h : ∃ d ∈ s, d._id = id) :
    ∃ pre d post, s = pre ++ d :: post ∧ d._id = id ∧ ∀ x ∈ pre, x._id ≠ id := by
  induction s with
  | nil => simp at h
  | cons x xs ih =>
    by_cases hx : x._id = id
    · exact ⟨[], x, xs, rfl, hx, by simp⟩
    · have : ∃ d ∈ xs, d._id = id := by
        obtain ⟨d, hd, hid⟩ := h
        rcases List.mem_cons.mp hd with rfl | hd
        · exact absurd hid hx
        · exact ⟨d, hd, hid⟩
      obtain ⟨pre, d, post, hs, hd, hpre⟩ := ih this
      refine ⟨x :: pre, d, post, by simp [hs], hd, ?_⟩
      intro y hy
      rcases List.mem_cons.mp hy with rfl | hy
      · exact hx
      · exact hpre y hy

theorem UpdateOne_split (pre post : Collection) (d : Document) (id : ObjectID) (text : String)
    (hd : d._id = id) (hpre : ∀ x ∈ pre, x._id ≠ id) :
    UpdateOne (pre ++ d :: post) id text = pre ++ { d with comment := text } :: post := by
  induction pre with
  | nil => simp [UpdateOne, hd]
  | cons x xs ih =>
    have hx : x._id ≠ id := hpre x (List.mem_cons_self _ _)
    have := ih (fun y hy => hpre y (List.mem_cons_of_mem _ hy))
    simp [UpdateOne, hx, this]

theorem UpdateOne_absent (s : Collection) (id : ObjectID) (text : String)
    (h : ∀ d ∈ s, d._id ≠ id) : UpdateOne s id text = s := by
  induction s with
  | nil => rfl
  | cons x xs ih =>
    have hx : x._id ≠ id := h x (List.mem_cons_self _ _)
    simp [UpdateOne, hx, ih (fun y hy => h y (List.mem_cons_of_mem _ hy))]

theorem DeleteOne_split (pre post : Collection) (d : Document) (id : ObjectID)
    (hd : d._id = id) (hpre : ∀ x ∈ pre, x._id ≠ id) :
    DeleteOne (pre ++ d :: post) id = pre ++ post := by
  induction pre with
  | nil => simp [DeleteOne, hd]
  | cons x xs ih =>
    have hx : x._id ≠ id := hpre x (List.mem_cons_self _ _)
    have := ih (fun y hy => hpre y (List.mem_cons_of_mem _ hy))
    simp [DeleteOne, hx, this]

theorem DeleteOne_absent (s : Collection) (id : ObjectID)
    (h : ∀ d ∈ s, d._id ≠ id) : DeleteOne s id = s := by
  induction s with
  | nil => rfl
  | cons x xs ih =>
    have hx : x._id ≠ id := h x (List.mem_cons_self _ _)
    simp [DeleteOne, hx, ih (fun y hy => h y (List.mem_cons_of_mem _ hy))]

theorem UniqueIds_split (pre post : Collection) (d : Document)
    (h : UniqueIds (pre ++ d :: post)) :
    (∀ x ∈ pre, x._id ≠ d._id) ∧ (∀ x ∈ post, x._id ≠ d._id) ∧ UniqueIds (pre ++ post) := by
  unfold UniqueIds at *
  simp only [List.map_append, List.map_cons] at h
  have h' := List.nodup_middle.mp h
  rw [List.nodup_cons] at h'
  refine ⟨?_, ?_, by simpa using h'.2⟩
  · intro x hx hid
    apply h'.1
    simp only [List.mem_append, List.mem_map]
    exact Or.inl ⟨x, hx, hid⟩
  · intro x hx hid
    apply h'.1
    simp only [List.mem_append, List.mem_map]
    exact Or.inr ⟨x, hx, hid⟩

theorem DeleteOne_eq_filter (s : Collection) (id : ObjectID) (h : UniqueIds s) :
    DeleteOne s id = s.filter (fun d => decide (d._id ≠ id)) := by
  by_cases hm : ∃ d ∈ s, d._id = id
  · obtain ⟨pre, d, post, hs, hd, hpre⟩ := exists_split s id hm
    subst hs
    obtain ⟨h1, h2, _⟩ := UniqueIds_split pre post d h
    rw [DeleteOne_split pre post d id hd hpre]
    have e1 : pre.filter (fun d => decide (d._id ≠ id)) = pre :=
      List.filter_eq_self.mpr (fun x hx => by simpa using hpre x hx)
    have e2 : post.filter (fun d => decide (d._id ≠ id)) = post :=
      List.filter_eq_self.mpr (fun x hx => by simpa [hd] using h2 x hx)
    rw [List.filter_append, List.filter_cons, e1, e2]
    simp [hd]
  · have hm' : ∀ d ∈ s, d._id ≠ id := fun d hd hid => hm ⟨d, hd, hid⟩
    rw [DeleteOne_absent s id hm']
    exact (List.filter_eq_self.mpr (fun x hx => by simpa using hm' x hx)).symm

theorem trunc_ne_zero (t : Int) (h : 1000000 ≤ t) : t - t % 1000000 ≠ 0 := by
  omega

theorem trunc_eq_iff (t : Int) : t - t % 1000000 = t ↔ t % 1000000 = 0 := by
  omega

theorem Hex_injective (a b : ObjectID) (h : a.Hex = b.Hex) : a = b := by
  rw [← idOfParam_Hex a, ← idOfParam_Hex b, h]

theorem CreateComment_fresh (u : Unmarshalers) (store : Collection) (newId : ObjectID)
    (now : Instant) (body : Body) (h : ∀ d ∈ store, d._id ≠ newId) :
    CreateComment u store newId now body =
      ⟨store ++ [⟨newId, NewDateTimeFromTime now, (decodeBody u body).Comment⟩],
        .responded (.object (encodeComment ⟨newId, now, (decodeBody u body).Comment⟩))⟩ := by
  unfold CreateComment
  simp only
  rw [InsertOne_absent store _ (by simpa [bsonMarshal] using h)]
  rfl

theorem CreateComment_taken (u : Unmarshalers) (store : Collection) (newId : ObjectID)
    (now : Instant) (body : Body) (h : ∃ d ∈ store, d._id = newId) :
    CreateComment u store newId now body = ⟨store, .fatal⟩ := by
  unfold CreateComment
  simp only
  rw [InsertOne_present store _ (by simpa [bsonMarshal] using h)]

theorem GetComment_found (pre post : Collection) (d : Document) (param : String)
    (hd : d._id = idOfParam param) (hpre : ∀ x ∈ pre, x._id ≠ idOfParam param) :
    GetComment (pre ++ d :: post) param =
      ⟨pre ++ d :: post, .responded (.object (encodeComment (bsonDecode d)))⟩ := by
  unfold GetComment
  simp only
  rw [FindOne_split pre post d _ hd hpre]

theorem GetComment_miss (store : Collection) (param : String)
    (h : ∀ d ∈ store, d._id ≠ idOfParam param) :
    GetComment store param = ⟨store, .responded (.object (encodeComment zeroComment))⟩ := by
  unfold GetComment
  simp only
  rw [(FindOne_eq_none_iff store _).mpr h]

/-- `GetComments` leaves the collection as it is, and its body is the array of
the stored comments in store order when there is at least one, but `null` when
the collection is empty. -/
theorem list_body (store : Collection) :
    GetComments store =
      ⟨store, .responded (if store = [] then .null
        else .array (store.map (fun d => encodeComment (bsonDecode d))))⟩ := by
  have key : ∀ (s : Collection) (acc : List Comment),
      s.foldl (fun acc d => Slice.append acc (bsonDecode d)) (some acc) =
        some (acc ++ s.map bsonDecode) := by
    intro s
    induction s with
    | nil => intro acc; simp
    | cons d rest ih =>
      intro acc
      rw [List.foldl_cons,
        show Slice.append (some acc) (bsonDecode d) = some (acc ++ [bsonDecode d]) from rfl, ih]
      simp
  unfold GetComments
  cases store with
  | nil => rfl
  | cons d rest =>
    simp only
    rw [List.foldl_cons, show Slice.append none (bsonDecode d) = some [bsonDecode d] from rfl, key]
    simp [encodeComments]

theorem UpdateOne_ids (s : Collection) (id : ObjectID) (text : String) :
    (UpdateOne s id text).map (fun d => d._id) = s.map (fun d => d._id) := by
  induction s with
  | nil => rfl
  | cons x xs ih =>
    by_cases hx : x._id = id
    · simp [UpdateOne, hx]
    · simp [UpdateOne, hx, ih]

theorem UpdateOne_forward (s : Collection) (id : ObjectID) (text : String) (d : Document)
    (hd : d ∈ s) : ∃ e ∈ UpdateOne s id text, e._id = d._id ∧ e.time = d.time := by
  induction s with
  | nil => simp at hd
  | cons x xs ih =>
    by_cases hx : x._id = id
    · rcases List.mem_cons.mp hd with rfl | hd
      · exact ⟨⟨d._id, d.time, text⟩, by simp [UpdateOne, hx], rfl, rfl⟩
      · exact ⟨d, by simp [UpdateOne, hx, hd], rfl, rfl⟩
    · rcases List.mem_cons.mp hd with rfl | hd
      · exact ⟨d, by simp [UpdateOne, hx], rfl, rfl⟩
      · obtain ⟨e, he, h1, h2⟩ := ih hd
        exact ⟨e, by simp [UpdateOne, hx, he], h1, h2⟩

theorem UpdateOne_backward (s : Collection) (id : ObjectID) (text : String) (e : Document)
    (he : e ∈ UpdateOne s id text) : ∃ d ∈ s, d._id = e._id ∧ d.time = e.time := by
  induction s with
  | nil => simp [UpdateOne] at he
  | cons x xs ih =>
    by_cases hx : x._id = id
    · simp only [UpdateOne, hx, if_true] at he
      rcases List.mem_cons.mp he with rfl | he
      · exact ⟨x, List.mem_cons_self _ _, hx, rfl⟩
      · exact ⟨e, List.mem_cons_of_mem _ he, rfl, rfl⟩
    · simp only [UpdateOne, hx, if_false] at he
      rcases List.mem_cons.mp he with rfl | he
      · exact ⟨e, List.mem_cons_self _ _, rfl, rfl⟩
      · obtain ⟨d, hd, h1, h2⟩ := ih he
        exact ⟨d, List.mem_cons_of_mem _ hd, h1, h2⟩

theorem DeleteOne_sublist (s : Collection) (id : ObjectID) : (DeleteOne s id).Sublist s := by
  induction s with
  | nil => exact List.Sublist.refl _
  | cons x xs ih =>
    by_cases hx : x._id = id
    · simp only [DeleteOne, hx, if_true]
      exact List.sublist_cons_self x xs
    · simp only [DeleteOne, hx, if_false]
      exact ih.cons₂ x

theorem UpdateComment_store (u : Unmarshalers) (s : Collection) (param : String) (body : Body) :
    (UpdateComment u s param body).store =
      UpdateOne s (idOfParam param) (decodeBody u body).Comment := by
  unfold UpdateComment
  simp only
  split <;> rfl

theorem GetComment_store (s : Collection) (param : String) : (GetComment s param).store = s := by
  unfold GetComment
  simp only
  split <;> rfl

/-- The invariant of the collection: ids unique, none zero. -/
theorem handle_invariant (u : Unmarshalers) (s : Collection) (r : Request)
    (hgen : generatorOk u s [r] = true)
    (huniq : UniqueIds s) (hnz : ∀ d ∈ s, d._id ≠ NilObjectID) :
    UniqueIds (handle u s r).store ∧ ∀ d ∈ (handle u s r).store, d._id ≠ NilObjectID := by
  cases r with
  | getComments => exact ⟨huniq, hnz⟩
  | getComment param =>
    show UniqueIds (GetComment s param).store ∧ ∀ d ∈ (GetComment s param).store, _
    rw [GetComment_store]
    exact ⟨huniq, hnz⟩
  | createComment newId now body =>
    simp only [generatorOk, Bool.and_true, Bool.and_eq_true, decide_eq_true_eq] at hgen
    have hfresh := (absent_iff s newId).mp hgen.2
    show UniqueIds (CreateComment u s newId now body).store ∧
      ∀ d ∈ (CreateComment u s newId now body).store, _
    rw [CreateComment_fresh u s newId now body hfresh]
    constructor
    · unfold UniqueIds at *
      simp only [List.map_append, List.map_cons, List.map_nil]
      rw [List.nodup_append]
      refine ⟨huniq, List.nodup_singleton _, ?_⟩
      intro x hx hx'
      rw [List.mem_singleton] at hx'
      obtain ⟨d, hd, hid⟩ := List.mem_map.mp hx
      exact hfresh d hd (hid.trans hx')
    · intro d hd
      rcases List.mem_append.mp hd with hd | hd
      · exact hnz d hd
      · rw [List.mem_singleton] at hd
        rw [hd]
        exact hgen.1
  | updateComment param body =>
    show UniqueIds (UpdateComment u s param body).store ∧
      ∀ d ∈ (UpdateComment u s param body).store, _
    rw [UpdateComment_store]
    constructor
    · unfold UniqueIds at *
      rw [UpdateOne_ids]
      exact huniq
    · intro e he
      obtain ⟨d, hd, h1, _⟩ := UpdateOne_backward s _ _ e he
      rw [← h1]
      exact hnz d hd
  | deleteComment param =>
    show UniqueIds (DeleteOne s (idOfParam param)) ∧
      ∀ d ∈ DeleteOne s (idOfParam param), _
    have hsub := DeleteOne_sublist s (idOfParam param)
    constructor
    · unfold UniqueIds at *
      exact List.Nodup.sublist (hsub.map _) huniq
    · intro d hd
      exact hnz d (hsub.subset hd)

theorem generatorOk_cons (u : Unmarshalers) (s : Collection) (r : Request) (rest : List Request)
    (h : generatorOk u s (r :: rest) = true) :
    generatorOk u s [r] = true ∧ generatorOk u (handle u s r).store rest = true := by
  simp only [generatorOk, Bool.and_eq_true, Bool.and_true] at h ⊢
  exact h

theorem run_invariant (u : Unmarshalers) (reqs : List Request) :
    ∀ s : Collection, generatorOk u s reqs = true → UniqueIds s →
      (∀ d ∈ s, d._id ≠ NilObjectID) →
      UniqueIds (run u s reqs) ∧ ∀ d ∈ run u s reqs, d._id ≠ NilObjectID := by
  induction reqs with
  | nil => intro s _ huniq hnz; exact ⟨huniq, hnz⟩
  | cons r rest ih =>
    intro s hgen huniq hnz
    obtain ⟨h1, h2⟩ := generatorOk_cons u s r rest hgen
    obtain ⟨hu, hz⟩ := handle_invariant u s r h1 huniq hnz
    exact ih _ h2 hu hz

theorem handle_keeps (u : Unmarshalers) (s : Collection) (r : Request)
    (hgen : generatorOk u s [r] = true) (huniq : UniqueIds s) :
    (∀ d ∈ s,
      (∃ e ∈ (handle u s r).store, e._id = d._id ∧ e.time = d.time) ∨
      (∃ param, r = .deleteComment param ∧ idOfParam param = d._id ∧
        ∀ e ∈ (handle u s r).store, e._id ≠ d._id)) ∧
    (∀ e ∈ (handle u s r).store,
      (∃ d ∈ s, d._id = e._id ∧ d.time = e.time) ∨
      (∃ newId now body, r = .createComment newId now body ∧ e._id = newId ∧
        e.time = NewDateTimeFromTime now)) := by
  cases r with
  | getComments =>
    exact ⟨fun d hd => Or.inl ⟨d, hd, rfl, rfl⟩, fun e he => Or.inl ⟨e, he, rfl, rfl⟩⟩
  | getComment param =>
    show (∀ d ∈ s, (∃ e ∈ (GetComment s param).store, _) ∨ _) ∧
      (∀ e ∈ (GetComment s param).store, _)
    rw [GetComment_store]
    exact ⟨fun d hd => Or.inl ⟨d, hd, rfl, rfl⟩, fun e he => Or.inl ⟨e, he, rfl, rfl⟩⟩
  | createComment newId now body =>
    simp only [generatorOk, Bool.and_true, Bool.and_eq_true, decide_eq_true_eq] at hgen
    have hfresh := (absent_iff s newId).mp hgen.2
    show (∀ d ∈ s, (∃ e ∈ (CreateComment u s newId now body).store, _) ∨ _) ∧
      (∀ e ∈ (CreateComment u s newId now body).store, _)
    rw [CreateComment_fresh u s newId now body hfresh]
    constructor
    · intro d hd
      exact Or.inl ⟨d, List.mem_append_left _ hd, rfl, rfl⟩
    · intro e he
      rcases List.mem_append.mp he with he | he
      · exact Or.inl ⟨e, he, rfl, rfl⟩
      · rw [List.mem_singleton] at he
        exact Or.inr ⟨newId, now, body, rfl, by rw [he], by rw [he]⟩
  | updateComment param body =>
    show (∀ d ∈ s, (∃ e ∈ (UpdateComment u s param body).store, _) ∨ _) ∧
      (∀ e ∈ (UpdateComment u s param body).store, _)
    rw [UpdateComment_store]
    exact ⟨fun d hd => Or.inl (UpdateOne_forward s _ _ d hd),
      fun e he => Or.inl (UpdateOne_backward s _ _ e he)⟩
  | deleteComment param =>
    show (∀ d ∈ s, (∃ e ∈ DeleteOne s (idOfParam param), _) ∨
        (∃ p, Request.deleteComment param = .deleteComment p ∧ idOfParam p = d._id ∧
          ∀ e ∈ DeleteOne s (idOfParam param), e._id ≠ d._id)) ∧
      (∀ e ∈ DeleteOne s (idOfParam param), _)
    rw [DeleteOne_eq_filter s _ huniq]
    constructor
    · intro d hd
      by_cases hid : d._id = idOfParam param
      · refine Or.inr ⟨param, rfl, hid.symm, ?_⟩
        intro e he
        rw [hid]
        simpa using (List.mem_filter.mp he).2
      · exact Or.inl ⟨d, List.mem_filter.mpr ⟨hd, by simpa using hid⟩, rfl, rfl⟩
    · intro e he
      exact Or.inl ⟨e, (List.mem_filter.mp he).1, rfl, rfl⟩

theorem encodeComment_eq (c : Comment) :
    encodeComment c =
      [("_id", .string c.ID.Hex), ("_time", .time c.Time), ("comment", .string c.Comment)] := by
  simp [encodeComment, isEmptyValue, c.ID.property]

theorem id_member_iff (c : Comment) (id : ObjectID) :
    ("_id", Member.string id.Hex) ∈ encodeComment c ↔ c.ID = id := by
  rw [encodeComment_eq]
  constructor
  · intro h
    rcases List.mem_cons.mp h with h | h
    · injection h with _ h2
      injection h2 with h3
      exact (Hex_injective _ _ h3).symm
    · rcases List.mem_cons.mp h with h | h
      · injection h with h1 _
        exact absurd h1 (by decide)
      · rw [List.mem_singleton] at h
        injection h with h1 _
        exact absurd h1 (by decide)
  · intro h
    rw [h]
    exact List.mem_cons_self _ _

theorem GetComments_nonempty (s : Collection) (h : s ≠ []) :
    GetComments s = ⟨s, .responded (.array (listed s))⟩ := by
  rw [list_body, if_neg h]
  rfl

theorem decodeMembers_Comment (u : Unmarshalers) (ms : List (String × Value)) :
    ∀ (text : String) (saved : Bool),
      (decodeMembers u ms text saved).Comment =
        ms.foldl (fun t m =>
          match fieldOfKey m.1, m.2 with
          | some .Comment, .string s => s
          | _, _ => t) text := by
  induction ms with
  | nil => intro text saved; rfl
  | cons m rest ih =>
    intro text saved
    obtain ⟨key, v⟩ := m
    rw [List.foldl_cons]
    cases hk : fieldOfKey key with
    | none => simp only [decodeMembers, hk, ih]
    | some f =>
      cases f with
      | ID =>
        by_cases ha : u.objectID v = true
        · simp only [decodeMembers, hk, ha, if_true, ih]
        · simp [decodeMembers, hk, ha, ih]
      | Time =>
        by_cases ha : u.time v = true
        · simp only [decodeMembers, hk, ha, if_true, ih]
        · simp [decodeMembers, hk, ha, ih]
      | Comment =>
        cases v with
        | string s => simp only [decodeMembers, hk, ih]
        | null => simp only [decodeMembers, hk, ih]
        | bool b => simp only [decodeMembers, hk, ih]
        | number n => simp only [decodeMembers, hk, ih]
        | array xs => simp only [decodeMembers, hk, ih]
        | object xs => simp only [decodeMembers, hk, ih]

/-- An error in a member does not end the decoding: with `"_time":5` written
before `"comment":"hello"`, the error is reported and the text is stored. -/
theorem decode_goes_on_after_error :
    decodeBody lenient bodyBadTimeFirst = ⟨"hello", true⟩ := by
  decide

/-! ## The claims -/

/-! ### C1: Create, then get -/

/-- C1, as the code has it. When `CreateComment` responds, its body is the
comment `c` with the generated id, the clock reading and the decoded text `T`;
`GetComment` on the hex form of that id leaves the collection as it is and
responds with the comment of the same id and the same text whose time is `c`'s
cut down to the whole millisecond, which is `c` itself exactly when the clock
reading is a whole number of milliseconds; the id and both times are not zero;
a second `GetComment` gives the same result again. -/
theorem create_then_get (u : Unmarshalers) (store : Collection) (newId : ObjectID)
    (now : Instant) (body : Body) (T : String) (b : Json)
    (hT : (decodeBody u body).Comment = T)
    (hresp : (CreateComment u store newId now body).outcome = .responded b)
    (hid : newId ≠ NilObjectID) (hclock : 1000000 ≤ now) :
    b = .object (encodeComment ⟨newId, now, T⟩) ∧
    GetComment (CreateComment u store newId now body).store newId.Hex =
      ⟨(CreateComment u store newId now body).store,
        .responded (.object (encodeComment ⟨newId, now - now % 1000000, T⟩))⟩ ∧
    GetComment (GetComment (CreateComment u store newId now body).store newId.Hex).store newId.Hex =
      GetComment (CreateComment u store newId now body).store newId.Hex ∧
    newId ≠ NilObjectID ∧ now ≠ 0 ∧ now - now % 1000000 ≠ 0 ∧
    ((⟨newId, now - now % 1000000, T⟩ : Comment) = ⟨newId, now, T⟩ ↔ now % 1000000 = 0) := by
  have hfresh : ∀ d ∈ store, d._id ≠ newId := by
    intro d hd hne
    rw [CreateComment_taken u store newId now body ⟨d, hd, hne⟩] at hresp
    exact Outcome.noConfusion hresp
  rw [CreateComment_fresh u store newId now body hfresh] at hresp ⊢
  simp only [hT] at hresp ⊢
  have hget : GetComment (store ++ [⟨newId, NewDateTimeFromTime now, T⟩]) newId.Hex =
      ⟨store ++ [⟨newId, NewDateTimeFromTime now, T⟩],
        .responded (.object (encodeComment ⟨newId, now - now % 1000000, T⟩))⟩ := by
    rw [GetComment_found store [] ⟨newId, NewDateTimeFromTime now, T⟩ newId.Hex
      (by rw [idOfParam_Hex]) (by rw [idOfParam_Hex]; exact hfresh)]
    simp only [bsonDecode, roundTrip_time]
  refine ⟨?_, hget, ?_, hid, ?_, ?_, ?_⟩
  · injection hresp with h; exact h.symm
  · rw [hget]; exact hget
  · intro h; rw [h] at hclock; exact absurd hclock (by decide)
  · exact trunc_ne_zero now hclock
  · constructor
    · intro h
      injection h with _ h2 _
      exact (trunc_eq_iff now).mp h2
    · intro h
      rw [(trunc_eq_iff now).mpr h]

/-- C1 at a concrete request: the empty collection, the id `idA`, the clock
reading `clockA`, the body `bodyHello`. -/
theorem create_then_get_witness :
    (Json.object (encodeComment ⟨idA, clockA, "hello"⟩)) =
      .object (encodeComment ⟨idA, clockA, "hello"⟩) ∧
    GetComment (CreateComment lenient [] idA clockA bodyHello).store idA.Hex =
      ⟨(CreateComment lenient [] idA clockA bodyHello).store,
        .responded (.object (encodeComment ⟨idA, clockA - clockA % 1000000, "hello"⟩))⟩ ∧
    GetComment (GetComment (CreateComment lenient [] idA clockA bodyHello).store idA.Hex).store
        idA.Hex =
      GetComment (CreateComment lenient [] idA clockA bodyHello).store idA.Hex ∧
    idA ≠ NilObjectID ∧ clockA ≠ 0 ∧ clockA - clockA % 1000000 ≠ 0 ∧
    ((⟨idA, clockA - clockA % 1000000, "hello"⟩ : Comment) = ⟨idA, clockA, "hello"⟩ ↔
      clockA % 1000000 = 0) :=
  create_then_get lenient [] idA clockA bodyHello "hello" _ (by decide) (by decide) (by decide)
    (by decide)

/-- C1 fails as stated: after `POST` of the body `"comment":"hello"` at a clock
reading with a fraction of a millisecond, `CreateComment` responds with that
reading and `GetComment` on the returned id with the reading cut to the
millisecond, so the two bodies differ. -/
theorem create_then_get_differs :
    (CreateComment lenient [] idA clockA bodyHello).outcome =
      .responded (.object [("_id", .string "65a1b2c3d4e5f60718293a4b"),
        ("_time", .time 63823949123123456789), ("comment", .string "hello")]) ∧
    (GetComment (CreateComment lenient [] idA clockA bodyHello).store idA.Hex).outcome =
      .responded (.object [("_id", .string "65a1b2c3d4e5f60718293a4b"),
        ("_time", .time 63823949123123000000), ("comment", .string "hello")]) ∧
    (GetComment (CreateComment lenient [] idA clockA bodyHello).store idA.Hex).outcome ≠
      (CreateComment lenient [] idA clockA bodyHello).outcome := by
  decide

/-! ### C2: Update changes the text only -/

/-- C2. When the id of the request matches a stored comment, `UpdateComment`
changes the collection in one place only: the first document `d` with that id
(the only one, the ids being unique) has its text replaced by the decoded text,
its `_id` and `time` as before; the documents before and after it are the same
and in the same places; the response is the updated document as a comment. -/
theorem update_isolation (u : Unmarshalers) (store : Collection) (param : String) (body : Body)
    (T : String) (hT : (decodeBody u body).Comment = T)
    (hmatch : ∃ d ∈ store, d._id = idOfParam param) :
    ∃ pre d post, store = pre ++ d :: post ∧ d._id = idOfParam param ∧
      (∀ x ∈ pre, x._id ≠ idOfParam param) ∧
      (UniqueIds store → ∀ x ∈ post, x._id ≠ idOfParam param) ∧
      UpdateComment u store param body =
        ⟨pre ++ ⟨d._id, d.time, T⟩ :: post,
          .responded (.object (encodeComment ⟨d._id, DateTimeTime d.time, T⟩))⟩ := by
  obtain ⟨pre, d, post, hs, hd, hpre⟩ := exists_split store _ hmatch
  refine ⟨pre, d, post, hs, hd, hpre, ?_, ?_⟩
  · intro huniq x hx
    rw [hs] at huniq
    rw [← hd]
    exact (UniqueIds_split pre post d huniq).2.1 x hx
  · subst hs
    unfold UpdateComment
    simp only [hT]
    rw [UpdateOne_split pre post d _ T hd hpre]
    rw [FindOne_split pre post ⟨d._id, d.time, T⟩ _ hd hpre]
    rfl

/-- C2 at a concrete request: a collection of two comments, the second one
updated. -/
theorem update_isolation_witness :
    ∃ pre d post, [docB, ⟨idA, 5, "a"⟩] = pre ++ d :: post ∧ d._id = idOfParam idA.Hex ∧
      (∀ x ∈ pre, x._id ≠ idOfParam idA.Hex) ∧
      (UniqueIds [docB, ⟨idA, 5, "a"⟩] → ∀ x ∈ post, x._id ≠ idOfParam idA.Hex) ∧
      UpdateComment lenient [docB, ⟨idA, 5, "a"⟩] idA.Hex bodyHello =
        ⟨pre ++ ⟨d._id, d.time, "hello"⟩ :: post,
          .responded (.object (encodeComment ⟨d._id, DateTimeTime d.time, "hello"⟩))⟩ :=
  update_isolation lenient [docB, ⟨idA, 5, "a"⟩] idA.Hex bodyHello "hello" (by decide)
    ⟨⟨idA, 5, "a"⟩, by simp, by decide⟩

/-! ### C3: A lookup that misses -/

/-- C3. On every collection reached from the empty one by requests to the
handlers (the id generator returning non-zero ids not in the collection), for
every id string that is not a valid 24-digit hex id or is one that no stored
comment has, `GetComment` leaves the collection as it is and responds with the
zero comment: zero id, zero time, empty text. -/
theorem lookup_miss_is_empty_comment (u : Unmarshalers) (reqs : List Request) (param : String)
    (hgen : generatorOk u [] reqs = true)
    (hmiss : ObjectIDFromHex param = none ∨ ∀ d ∈ run u [] reqs, d._id ≠ idOfParam param) :
    GetComment (run u [] reqs) param =
      ⟨run u [] reqs, .responded (.object (encodeComment ⟨NilObjectID, 0, ""⟩))⟩ := by
  obtain ⟨_, hnz⟩ := run_invariant u reqs [] hgen (by decide) (by simp)
  apply GetComment_miss
  rcases hmiss with h | h
  · have : idOfParam param = NilObjectID := by simp [idOfParam, h]
    rw [this]
    exact hnz
  · exact h

/-- C3 at a concrete request: one comment created, then a lookup with an id
string that is not hexadecimal. -/
theorem lookup_miss_is_empty_comment_witness :
    GetComment (run lenient [] [.createComment idA clockA bodyHello]) "not-hex" =
      ⟨run lenient [] [.createComment idA clockA bodyHello],
        .responded (.object (encodeComment ⟨NilObjectID, 0, ""⟩))⟩ :=
  lookup_miss_is_empty_comment lenient [.createComment idA clockA bodyHello] "not-hex"
    (by decide) (Or.inl (by decide))

/-! ### C4: Delete -/

/-- C4. On every collection with unique ids and for every id string,
`DeleteComment` responds with `"Comment Deleted"`; when no document has the id
the collection is unchanged; when one has, that document is removed and all
the others stay, in their order; a second `DeleteComment` with the same id
gives the same collection and the same response as the first. -/
theorem delete_idempotent (store : Collection) (param : String) (huniq : UniqueIds store) :
    (DeleteComment store param).outcome = .responded (.string "Comment Deleted") ∧
    ((∀ d ∈ store, d._id ≠ idOfParam param) → (DeleteComment store param).store = store) ∧
    (∀ pre d post, store = pre ++ d :: post → d._id = idOfParam param →
      (DeleteComment store param).store = pre ++ post ∧
      ∀ x ∈ pre ++ post, x._id ≠ idOfParam param) ∧
    DeleteComment (DeleteComment store param).store param = DeleteComment store param := by
  have hstore : (DeleteComment store param).store = DeleteOne store (idOfParam param) := rfl
  have hsplit : ∀ pre d post, store = pre ++ d :: post → d._id = idOfParam param →
      DeleteOne store (idOfParam param) = pre ++ post ∧
      ∀ x ∈ pre ++ post, x._id ≠ idOfParam param := by
    intro pre d post hs hd
    subst hs
    obtain ⟨h1, h2, _⟩ := UniqueIds_split pre post d huniq
    rw [hd] at h1 h2
    refine ⟨DeleteOne_split pre post d _ hd h1, ?_⟩
    intro x hx
    rcases List.mem_append.mp hx with hx | hx
    · exact h1 x hx
    · exact h2 x hx
  refine ⟨rfl, ?_, ?_, ?_⟩
  · intro h
    rw [hstore, DeleteOne_absent store _ h]
  · intro pre d post hs hd
    rw [hstore]
    exact hsplit pre d post hs hd
  · show (⟨DeleteOne (DeleteOne store (idOfParam param)) (idOfParam param), _⟩ : Result) =
      ⟨DeleteOne store (idOfParam param), _⟩
    congr 1
    by_cases hm : ∃ d ∈ store, d._id = idOfParam param
    · obtain ⟨pre, d, post, hs, hd, _⟩ := exists_split store _ hm
      obtain ⟨e, hne⟩ := hsplit pre d post hs hd
      rw [e]
      exact DeleteOne_absent _ _ hne
    · have hm' : ∀ d ∈ store, d._id ≠ idOfParam param := fun d hd hid => hm ⟨d, hd, hid⟩
      rw [DeleteOne_absent store _ hm']
      exact DeleteOne_absent store _ hm'

/-- C4 at a concrete request: a collection of two comments, the first one
deleted. -/
theorem delete_idempotent_witness :
    (DeleteComment [docB, ⟨idA, 5, "a"⟩] idB.Hex).outcome =
      .responded (.string "Comment Deleted") ∧
    ((∀ d ∈ [docB, ⟨idA, 5, "a"⟩], d._id ≠ idOfParam idB.Hex) →
      (DeleteComment [docB, ⟨idA, 5, "a"⟩] idB.Hex).store = [docB, ⟨idA, 5, "a"⟩]) ∧
    (∀ pre d post, [docB, ⟨idA, 5, "a"⟩] = pre ++ d :: post → d._id = idOfParam idB.Hex →
      (DeleteComment [docB, ⟨idA, 5, "a"⟩] idB.Hex).store = pre ++ post ∧
      ∀ x ∈ pre ++ post, x._id ≠ idOfParam idB.Hex) ∧
    DeleteComment (DeleteComment [docB, ⟨idA, 5, "a"⟩] idB.Hex).store idB.Hex =
      DeleteComment [docB, ⟨idA, 5, "a"⟩] idB.Hex :=
  delete_idempotent [docB, ⟨idA, 5, "a"⟩] idB.Hex (by decide)

/-! ### C5: The list after a create and a delete -/

/-- C5, as the code has it. Let the collection hold a comment `B`, its ids unique, and let
`CreateComment` make a new comment `A` under a non-zero id no stored comment
has. Whether `A` is created before `B` is deleted or after, `GetComments` then
lists, in store order, every stored comment other than `B` as it was, followed
by `A` as it is stored (the id and text of the response of `CreateComment`, its
time as a whole number of milliseconds), which is the comment of the response
itself when the clock reading is a whole number of milliseconds; no entry of
the list has the id of `B`, and `B` is not in the list. -/
theorem listing_reflects_mutations (u : Unmarshalers) (store : Collection) (B : Document)
    (newId : ObjectID) (now : Instant) (body : Body) (T : String)
    (hT : (decodeBody u body).Comment = T)
    (hB : B ∈ store) (huniq : UniqueIds store)
    (hid : newId ≠ NilObjectID) (hfresh : ∀ d ∈ store, d._id ≠ newId) :
    (CreateComment u store newId now body).outcome =
      .responded (.object (encodeComment ⟨newId, now, T⟩)) ∧
    (CreateComment u (DeleteComment store B._id.Hex).store newId now body).outcome =
      .responded (.object (encodeComment ⟨newId, now, T⟩)) ∧
    (GetComments (DeleteComment (CreateComment u store newId now body).store
        B._id.Hex).store).outcome =
      .responded (.array (listed (store.filter (fun d => decide (d._id ≠ B._id))) ++
        [encodeComment ⟨newId, now - now % 1000000, T⟩])) ∧
    (GetComments (CreateComment u (DeleteComment store B._id.Hex).store
        newId now body).store).outcome =
      .responded (.array (listed (store.filter (fun d => decide (d._id ≠ B._id))) ++
        [encodeComment ⟨newId, now - now % 1000000, T⟩])) ∧
    (now % 1000000 = 0 →
      encodeComment ⟨newId, now, T⟩ ∈
        listed (store.filter (fun d => decide (d._id ≠ B._id))) ++
          [encodeComment ⟨newId, now - now % 1000000, T⟩]) ∧
    (∀ o ∈ listed (store.filter (fun d => decide (d._id ≠ B._id))) ++
        [encodeComment ⟨newId, now - now % 1000000, T⟩],
      ("_id", Member.string B._id.Hex) ∉ o) ∧
    encodeComment (bsonDecode B) ∉
      listed (store.filter (fun d => decide (d._id ≠ B._id))) ++
        [encodeComment ⟨newId, now - now % 1000000, T⟩] := by
  have hne : newId ≠ NilObjectID := hid
  have hBid : B._id ≠ newId := hfresh B hB
  have hA : encodeComment (bsonDecode ⟨newId, NewDateTimeFromTime now, T⟩) =
      encodeComment ⟨newId, now - now % 1000000, T⟩ := by
    simp only [bsonDecode, roundTrip_time]
  have hdel : (DeleteComment store B._id.Hex).store =
      store.filter (fun d => decide (d._id ≠ B._id)) := by
    show DeleteOne store (idOfParam B._id.Hex) = _
    rw [idOfParam_Hex, DeleteOne_eq_filter store _ huniq]
  have hfresh' : ∀ d ∈ store.filter (fun d => decide (d._id ≠ B._id)), d._id ≠ newId :=
    fun d hd => hfresh d (List.mem_filter.mp hd).1
  have huniq' : UniqueIds (store ++ [⟨newId, NewDateTimeFromTime now, T⟩]) := by
    unfold UniqueIds at *
    simp only [List.map_append, List.map_cons, List.map_nil]
    rw [List.nodup_append]
    refine ⟨huniq, List.nodup_singleton _, ?_⟩
    intro x hx hx'
    rw [List.mem_singleton] at hx'
    obtain ⟨d, hd, hd'⟩ := List.mem_map.mp hx
    exact hfresh d hd (hd'.trans hx')
  have hdel' : (DeleteComment (store ++ [⟨newId, NewDateTimeFromTime now, T⟩]) B._id.Hex).store =
      store.filter (fun d => decide (d._id ≠ B._id)) ++ [⟨newId, NewDateTimeFromTime now, T⟩] := by
    show DeleteOne _ (idOfParam B._id.Hex) = _
    rw [idOfParam_Hex, DeleteOne_eq_filter _ _ huniq', List.filter_append]
    congr 1
    rw [List.filter_cons]
    simp [Ne.symm hBid]
  have hlist : ∀ s : Collection,
      (GetComments (s ++ [⟨newId, NewDateTimeFromTime now, T⟩])).outcome =
        .responded (.array (listed s ++ [encodeComment ⟨newId, now - now % 1000000, T⟩])) := by
    intro s
    rw [GetComments_nonempty _ (by simp)]
    simp only [listed, List.map_append, List.map_cons, List.map_nil, hA]
  have hnoB : ∀ o ∈ listed (store.filter (fun d => decide (d._id ≠ B._id))) ++
      [encodeComment ⟨newId, now - now % 1000000, T⟩],
      ("_id", Member.string B._id.Hex) ∉ o := by
    intro o ho hin
    rcases List.mem_append.mp ho with ho | ho
    · obtain ⟨d, hd, hd'⟩ := List.mem_map.mp ho
      rw [← hd'] at hin
      have h1 : d._id = B._id := (id_member_iff _ _).mp hin
      have h2 : decide (d._id ≠ B._id) = true := (List.mem_filter.mp hd).2
      exact (of_decide_eq_true h2) h1
    · rw [List.mem_singleton] at ho
      rw [ho] at hin
      exact hBid ((id_member_iff _ _).mp hin).symm
  have hwhole : now % 1000000 = 0 →
      encodeComment ⟨newId, now, T⟩ ∈
        listed (store.filter (fun d => decide (d._id ≠ B._id))) ++
          [encodeComment ⟨newId, now - now % 1000000, T⟩] := by
    intro h
    rw [(trunc_eq_iff now).mpr h]
    exact List.mem_append_right _ (List.mem_singleton.mpr rfl)
  refine ⟨?_, ?_, ?_, ?_, hwhole, hnoB, ?_⟩
  · rw [CreateComment_fresh u store newId now body hfresh, hT]
  · rw [hdel, CreateComment_fresh u _ newId now body hfresh', hT]
  · rw [CreateComment_fresh u store newId now body hfresh, hT]
    simp only
    rw [hdel', hlist]
  · rw [hdel, CreateComment_fresh u _ newId now body hfresh', hT]
    simp only
    rw [hlist]
  · intro hmem
    exact hnoB _ hmem ((id_member_iff _ _).mpr rfl)

/-- C5 at a concrete request: the collection holds `docB`; a comment is
created under `idA` and `docB` is deleted. -/
theorem listing_reflects_mutations_witness :
    (CreateComment lenient [docB] idA clockA bodyHello).outcome =
      .responded (.object (encodeComment ⟨idA, clockA, "hello"⟩)) ∧
    (CreateComment lenient (DeleteComment [docB] docB._id.Hex).store idA clockA bodyHello).outcome =
      .responded (.object (encodeComment ⟨idA, clockA, "hello"⟩)) ∧
    (GetComments (DeleteComment (CreateComment lenient [docB] idA clockA bodyHello).store
        docB._id.Hex).store).outcome =
      .responded (.array (listed ([docB].filter (fun d => decide (d._id ≠ docB._id))) ++
        [encodeComment ⟨idA, clockA - clockA % 1000000, "hello"⟩])) ∧
    (GetComments (CreateComment lenient (DeleteComment [docB] docB._id.Hex).store
        idA clockA bodyHello).store).outcome =
      .responded (.array (listed ([docB].filter (fun d => decide (d._id ≠ docB._id))) ++
        [encodeComment ⟨idA, clockA - clockA % 1000000, "hello"⟩])) ∧
    (clockA % 1000000 = 0 →
      encodeComment ⟨idA, clockA, "hello"⟩ ∈
        listed ([docB].filter (fun d => decide (d._id ≠ docB._id))) ++
          [encodeComment ⟨idA, clockA - clockA % 1000000, "hello"⟩]) ∧
    (∀ o ∈ listed ([docB].filter (fun d => decide (d._id ≠ docB._id))) ++
        [encodeComment ⟨idA, clockA - clockA % 1000000, "hello"⟩],
      ("_id", Member.string docB._id.Hex) ∉ o) ∧
    encodeComment (bsonDecode docB) ∉
      listed ([docB].filter (fun d => decide (d._id ≠ docB._id))) ++
        [encodeComment ⟨idA, clockA - clockA % 1000000, "hello"⟩] :=
  listing_reflects_mutations lenient [docB] docB idA clockA bodyHello "hello" (by decide)
    (by simp) (by decide) (by decide) (by decide)

/-- C5 fails as stated: with `docB` stored, a comment is created under `idA`
at a clock reading with a fraction of a millisecond and `docB` is deleted, in
either order; the comment `CreateComment` responded with is not in the array
`GetComments` then writes, whose one entry has its time cut to the
millisecond. -/
theorem listing_lacks_created_response :
    (CreateComment lenient [docB] idA clockA bodyHello).outcome =
      .responded (.object [("_id", .string "65a1b2c3d4e5f60718293a4b"),
        ("_time", .time 63823949123123456789), ("comment", .string "hello")]) ∧
    (GetComments (DeleteComment (CreateComment lenient [docB] idA clockA bodyHello).store
        idB.Hex).store).outcome =
      .responded (.array [[("_id", .string "65a1b2c3d4e5f60718293a4b"),
        ("_time", .time 63823949123123000000), ("comment", .string "hello")]]) ∧
    (GetComments (CreateComment lenient (DeleteComment [docB] idB.Hex).store
        idA clockA bodyHello).store).outcome =
      .responded (.array [[("_id", .string "65a1b2c3d4e5f60718293a4b"),
        ("_time", .time 63823949123123000000), ("comment", .string "hello")]]) ∧
    ([("_id", .string "65a1b2c3d4e5f60718293a4b"), ("_time", .time 63823949123123456789),
        ("comment", .string "hello")] : Object) ∉
      [[("_id", .string "65a1b2c3d4e5f60718293a4b"), ("_time", .time 63823949123123000000),
        ("comment", .string "hello")]] := by
  decide

/-! ### C6: The body of a miss -/

/-- C6, as the code has it. When `GetComment` finds no comment, the body it
writes is the encoding of the zero `Comment`, a JSON object that has the
member `comment` with the empty string for its value, the field not being
tagged `omitempty`: the body is never the empty object. -/
theorem miss_body_has_comment_member (store : Collection) (param : String)
    (hmiss : FindOne store (idOfParam param) = none) :
    ∃ o, GetComment store param = ⟨store, .responded (.object o)⟩ ∧
      o = encodeComment zeroComment ∧ ("comment", Member.string "") ∈ o ∧ o ≠ [] := by
  refine ⟨encodeComment zeroComment, ?_, rfl, by decide, by decide⟩
  exact GetComment_miss store param ((FindOne_eq_none_iff store _).mp hmiss)

/-- C6 at a concrete request: a lookup of `idA` in a collection that holds
only `docB`. -/
theorem miss_body_has_comment_member_witness :
    ∃ o, GetComment [docB] idA.Hex = ⟨[docB], .responded (.object o)⟩ ∧
      o = encodeComment zeroComment ∧ ("comment", Member.string "") ∈ o ∧ o ≠ [] :=
  miss_body_has_comment_member [docB] idA.Hex (by decide)

/-- C6 fails as stated: after a comment is created and deleted, `GetComment`
on its id writes an object with three members, not the empty object. -/
theorem miss_body_is_not_empty_object :
    (GetComment (DeleteComment (CreateComment lenient [] idA clockA bodyHello).store
        idA.Hex).store idA.Hex).outcome =
      .responded (.object [("_id", .string "000000000000000000000000"), ("_time", .time 0),
        ("comment", .string "")]) ∧
    (GetComment (DeleteComment (CreateComment lenient [] idA clockA bodyHello).store
        idA.Hex).store idA.Hex).outcome ≠ .responded (.object []) := by
  decide

/-! ### C7: Create and the request body -/

/-- C7, as the code has it. For every request body, `CreateComment` ends in
`log.Fatal` only when the generated id is already stored, whatever the body
is; otherwise it persists one new document and responds with the comment of
the generated id and the clock reading, the document holding that id and that
reading as a BSON date, whatever `_id` and `_time` the body supplied; the text
of both is the field `Comment` as the decoder left it. That text is the body's
`comment` string when the body is an object decoded without error, and it is
empty when the body is no JSON value or a JSON value that is not an object. -/
theorem create_overwrites_and_tolerates (u : Unmarshalers) (store : Collection)
    (newId : ObjectID) (now : Instant) (body : Body) (hid : newId ≠ NilObjectID) :
    ((CreateComment u store newId now body).outcome = .fatal ↔ ∃ d ∈ store, d._id = newId) ∧
    ((∀ d ∈ store, d._id ≠ newId) →
      CreateComment u store newId now body =
        ⟨store ++ [⟨newId, NewDateTimeFromTime now, (decodeBody u body).Comment⟩],
          .responded (.object (encodeComment ⟨newId, now, (decodeBody u body).Comment⟩))⟩) ∧
    (∀ ms, body = some (.object ms) → (decodeBody u body).err = false →
      (decodeBody u body).Comment = commentOf ms) ∧
    (body = none → (decodeBody u body) = ⟨"", true⟩) ∧
    (∀ v, body = some v → (∀ ms, v ≠ .object ms) → (decodeBody u body).Comment = "") := by
  have hne : newId ≠ NilObjectID := hid
  refine ⟨?_, CreateComment_fresh u store newId now body, ?_, ?_, ?_⟩
  · constructor
    · intro hf
      by_contra hno
      have hfresh : ∀ d ∈ store, d._id ≠ newId := fun d hd h => hno ⟨d, hd, h⟩
      rw [CreateComment_fresh u store newId now body hfresh] at hf
      exact Outcome.noConfusion hf
    · intro h
      rw [CreateComment_taken u store newId now body h]
  · intro ms hb _
    rw [hb]
    exact decodeMembers_Comment u ms "" false
  · intro h; rw [h]; rfl
  · intro v hv hobj
    rw [hv]
    cases v with
    | object ms => exact absurd rfl (hobj ms)
    | null => rfl
    | bool b => rfl
    | number n => rfl
    | string s => rfl
    | array xs => rfl

/-- C7 at a concrete request: the body `bodyHello` posted to a collection that
holds `docB`. -/
theorem create_overwrites_and_tolerates_witness :
    ((CreateComment lenient [docB] idA clockA bodyHello).outcome = .fatal ↔
      ∃ d ∈ [docB], d._id = idA) ∧
    ((∀ d ∈ [docB], d._id ≠ idA) →
      CreateComment lenient [docB] idA clockA bodyHello =
        ⟨[docB] ++ [⟨idA, NewDateTimeFromTime clockA, (decodeBody lenient bodyHello).Comment⟩],
          .responded (.object
            (encodeComment ⟨idA, clockA, (decodeBody lenient bodyHello).Comment⟩))⟩) ∧
    (∀ ms, bodyHello = some (.object ms) → (decodeBody lenient bodyHello).err = false →
      (decodeBody lenient bodyHello).Comment = commentOf ms) ∧
    (bodyHello = none → (decodeBody lenient bodyHello) = ⟨"", true⟩) ∧
    (∀ v, bodyHello = some v → (∀ ms, v ≠ .object ms) →
      (decodeBody lenient bodyHello).Comment = "") :=
  create_overwrites_and_tolerates lenient [docB] idA clockA bodyHello (by decide)

/-- C7 fails as stated: for the body with `"comment":"hello"` followed by
`"_time":5`, decoding reports an error (a number is no time), and the comment
`CreateComment` persists and returns has the text `hello`, not the empty
text. -/
theorem decode_error_keeps_text :
    decodeBody lenient bodyBadTime = ⟨"hello", true⟩ ∧
    CreateComment lenient [] idA clockA bodyBadTime =
      ⟨[⟨idA, 1688352323123, "hello"⟩],
        .responded (.object [("_id", .string "65a1b2c3d4e5f60718293a4b"),
          ("_time", .time 63823949123123456789), ("comment", .string "hello")])⟩ := by
  decide

/-! ### C8: The list of the empty collection -/

/-- C8 fails on the empty collection: the body `GetComments` writes is `null`,
which is not the empty array. -/
theorem list_of_empty_store_is_null :
    GetComments [] = ⟨[], .responded .null⟩ ∧ Json.null ≠ Json.array [] := by
  decide

/-! ### C9: Ids along a run -/

/-- C9. Starting from the empty collection, with an id generator that returns
non-zero ids not present in the collection, after every sequence of requests to
the five handlers: no two stored comments have the same id; no stored comment
has the zero id; and whatever request comes next, each stored comment is still
stored with the same id and time after it unless the request deleted it (then
no comment has its id), and each comment stored after it either was stored
before with that id and time or is the one the request created, with the
generated id and the time of the clock as a BSON date. -/
theorem ids_unique_and_stable (u : Unmarshalers) (reqs : List Request)
    (hgen : generatorOk u [] reqs = true) :
    UniqueIds (run u [] reqs) ∧
    (∀ d ∈ run u [] reqs, d._id ≠ NilObjectID) ∧
    ∀ r : Request, generatorOk u (run u [] reqs) [r] = true →
      (∀ d ∈ run u [] reqs,
        (∃ e ∈ (handle u (run u [] reqs) r).store, e._id = d._id ∧ e.time = d.time) ∨
        (∃ param, r = .deleteComment param ∧ idOfParam param = d._id ∧
          ∀ e ∈ (handle u (run u [] reqs) r).store, e._id ≠ d._id)) ∧
      (∀ e ∈ (handle u (run u [] reqs) r).store,
        (∃ d ∈ run u [] reqs, d._id = e._id ∧ d.time = e.time) ∨
        (∃ newId now body, r = .createComment newId now body ∧ e._id = newId ∧
          e.time = NewDateTimeFromTime now)) := by
  obtain ⟨huniq, hnz⟩ := run_invariant u reqs [] hgen (by decide) (by simp)
  exact ⟨huniq, hnz, fun r hr => handle_keeps u _ r hr huniq⟩

/-- C9 at a concrete sequence of requests, `sampleRequests`. -/
theorem ids_unique_and_stable_witness :
    UniqueIds (run lenient [] sampleRequests) ∧
    (∀ d ∈ run lenient [] sampleRequests, d._id ≠ NilObjectID) ∧
    ∀ r : Request, generatorOk lenient (run lenient [] sampleRequests) [r] = true →
      (∀ d ∈ run lenient [] sampleRequests,
        (∃ e ∈ (handle lenient (run lenient [] sampleRequests) r).store,
          e._id = d._id ∧ e.time = d.time) ∨
        (∃ param, r = .deleteComment param ∧ idOfParam param = d._id ∧
          ∀ e ∈ (handle lenient (run lenient [] sampleRequests) r).store, e._id ≠ d._id)) ∧
      (∀ e ∈ (handle lenient (run lenient [] sampleRequests) r).store,
        (∃ d ∈ run lenient [] sampleRequests, d._id = e._id ∧ d.time = e.time) ∨
        (∃ newId now body, r = .createComment newId now body ∧ e._id = newId ∧
          e.time = NewDateTimeFromTime now)) :=
  ids_unique_and_stable lenient sampleRequests (by decide)

/-! ### C10: Update on a miss -/

/-- C10. When the id of the request matches no stored comment (an id string
that is not valid hex is looked up as the zero id), `UpdateComment` leaves the
collection as it is and ends in `log.Fatal` without a response, while
`GetComment` and `DeleteComment` respond on the same input, the collection
unchanged. -/
theorem update_miss_is_fatal (u : Unmarshalers) (store : Collection) (param : String)
    (body : Body) (hmiss : ∀ d ∈ store, d._id ≠ idOfParam param) :
    UpdateComment u store param body = ⟨store, .fatal⟩ ∧
    GetComment store param = ⟨store, .responded (.object (encodeComment zeroComment))⟩ ∧
    DeleteComment store param = ⟨store, .responded (.string "Comment Deleted")⟩ ∧
    (ObjectIDFromHex param = none → idOfParam param = NilObjectID) := by
  refine ⟨?_, GetComment_miss store param hmiss, ?_, ?_⟩
  · unfold UpdateComment
    simp only
    rw [UpdateOne_absent store _ _ hmiss, (FindOne_eq_none_iff store _).mpr hmiss]
  · unfold DeleteComment
    simp only
    rw [DeleteOne_absent store _ hmiss]
  · intro h
    simp [idOfParam, h]

/-- C10 at a concrete request: an update with an id string that is not
hexadecimal. -/
theorem update_miss_is_fatal_witness :
    UpdateComment lenient [docB] "not-hex" bodyHello = ⟨[docB], .fatal⟩ ∧
    GetComment [docB] "not-hex" = ⟨[docB], .responded (.object (encodeComment zeroComment))⟩ ∧
    DeleteComment [docB] "not-hex" = ⟨[docB], .responded (.string "Comment Deleted")⟩ ∧
    (ObjectIDFromHex "not-hex" = none → idOfParam "not-hex" = NilObjectID) :=
  update_miss_is_fatal lenient [docB] "not-hex" bodyHello (by decide)

end Comments
